import Mathlib

/-!
Shallow embedding of the metadata-capture application's core
(`src/metadata_app`): the record data model, the schema catalog, the
schema normalizer, the persistence codec and the search engine, together
with theorems settling the specification claims.

Python dictionaries are modelled as insertion-ordered association lists
(`List (String × α)`); Python strings as Lean `String` (`str.lower` is
modelled on ASCII, `str.strip` trims the usual whitespace characters,
`in` is substring containment).
-/

namespace MetadataApp

/-- Python `str.lower()` (ASCII model): lower-case every character. -/
def pyLower (s : String) : String := ⟨s.data.map Char.toLower⟩

/-- Python `str.strip()`: drop leading and trailing whitespace. -/
def pyStrip (s : String) : String :=
  ⟨((s.data.dropWhile Char.isWhitespace).reverse.dropWhile Char.isWhitespace).reverse⟩

/-- Python `needle in hay` on strings: substring containment. -/
def pyIn (needle hay : String) : Bool := decide (needle.data <:+: hay.data)

/-- Python `s.endswith(suf)` / what `glob("*.xml")` tests on a file name. -/
def pyEndsWith (s suf : String) : Bool := decide (suf.data <:+ s.data)

/-- `d.get(k)` on a Python dict modelled as an insertion-ordered
association list: the first (hence, with unique keys, the only) binding. -/
def dictGet {α : Type} : List (String × α) → String → Option α
  | [], _ => none
  | (k', v) :: t, k => if k' = k then some v else dictGet t k

/-- `k in d` on a Python dict. -/
def dictContains {α : Type} (l : List (String × α)) (k : String) : Bool :=
  (dictGet l k).isSome

/-- `d[k] = v` on a Python dict: overwrite in place if the key is bound,
otherwise append the new binding. -/
def dictInsert {α : Type} : List (String × α) → String → α → List (String × α)
  | [], k, v => [(k, v)]
  | (k', v') :: t, k, v => if k' = k then (k, v) :: t else (k', v') :: dictInsert t k v

/-- `d.setdefault(k, v)` on a Python dict: append the binding only when
the key is absent. -/
def dictSetdefault {α : Type} (l : List (String × α)) (k : String) (v : α) :
    List (String × α) :=
  if dictContains l k then l else l ++ [(k, v)]

/-! ## Data model (`models/metadata_record.py`, `models/filter_criteria.py`) -/

/-- `MetadataSection`: name, field map (a Python dict), optional color. -/
structure MetadataSection where
  name : String
  fields : List (String × String)
  color : Option String
deriving DecidableEq

/-- `MetadataRecord`: title, media type, ordered section list, media path. -/
structure MetadataRecord where
  title : String
  media_type : String
  sections : List MetadataSection
  media_path : String
deriving DecidableEq

/-- `MetadataSection.get_field`. -/
def MetadataSection.get_field (s : MetadataSection) (field_name : String) : String :=
  (dictGet s.fields field_name).getD ""

/-- `MetadataRecord.get_section`: first section whose lower-cased name
equals the lower-cased argument. -/
def MetadataRecord.get_section (r : MetadataRecord) (name : String) :
    Option MetadataSection :=
  r.sections.find? fun s => pyLower s.name = pyLower name

/-- `MetadataRecord.flatten`: one dict keyed `"Section:Field"`, built by
dict assignment over sections then fields in order. -/
def MetadataRecord.flatten (r : MetadataRecord) : List (String × String) :=
  r.sections.foldl
    (fun m s =>
      s.fields.foldl (fun m' fv => dictInsert m' (s.name ++ ":" ++ fv.1) fv.2) m)
    []

/-- `FilterCriteria`: `sect` models the Python field `section` (a Lean
keyword), `field` and `keyword` keep their names. -/
structure FilterCriteria where
  sect : String
  field : String
  keyword : String
deriving DecidableEq

/-- `FilterCriteria.key`: the composite `"section:field"` lookup key. -/
def FilterCriteria.key (c : FilterCriteria) : String := c.sect ++ ":" ++ c.field

/-! ## Schema catalog (`config/schema.py`) -/

/-- `SectionDefinition`: immutable schema section. -/
structure SectionDefinition where
  name : String
  color : String
  fields : List String
deriving DecidableEq

/-- `SECTION_COLORS`. -/
def SECTION_COLORS : List (String × String) :=
  [("Administrative", "#FFA500"),
   ("Descriptive", "#9370DB"),
   ("Technical Original", "#BEBEBE"),
   ("Technical Master", "#708090"),
   ("Access Copy", "#4682B4"),
   ("Technical Access Copy", "#4682B4"),
   ("Capture Chain", "#6A5ACD"),
   ("Preservation", "#3CB371")]

/-- `_make_sections` applied to one `(name, color_key, fields)` triple
(every color key used below is present in `SECTION_COLORS`, so the
`.getD ""` default is never taken). -/
def mkSection (name colorKey : String) (fields : List String) : SectionDefinition :=
  ⟨name, (dictGet SECTION_COLORS colorKey).getD "", fields⟩

/-- `VIDEO_AUDIO_SECTIONS`. -/
def VIDEO_AUDIO_SECTIONS : List SectionDefinition :=
  [mkSection "Administrative" "Administrative"
     ["Title", "Identifier", "CollectionName", "AcquisitionMethod",
      "DonorSourceContact", "Contributors", "DateOfCreation", "RightsHolder",
      "AccessConditions", "HoldingInstitution", "CopyRightStatus",
      "UserRestrictions", "QCStatus", "QCReport", "QCOperator"],
   mkSection "Descriptive" "Descriptive"
     ["Identifier", "Title", "Subject", "Summary", "KeyWords", "Genre",
      "Creator", "Languages", "GeographicLocation", "EventDate",
      "PeopleInVideo"],
   mkSection "Technical Original" "Technical Original"
     ["SignalType", "FormatLevel", "Format", "SignalStandard", "RecordingMode",
      "TapeLengthMinutes", "AudioChannels", "ConditionNotes", "OriginalLabel",
      "FormatNotes"],
   mkSection "Technical Master" "Technical Master"
     ["FileFormat", "BitDepth", "Resolution", "FrameRate", "AspectRatio",
      "WidthHeight", "ScanType", "ColorSubSampling", "ColorSpace",
      "AudioFormat", "AudioSampleRateKHz", "AudioBitDepth",
      "AudioChannelsCount", "DataRate", "Duration", "FileSizeGB", "Checksums",
      "EmbeddedMetadataSchema"],
   mkSection "Access Copy" "Access Copy"
     ["Container", "BitDepth", "Resolution", "AudioChannel", "Duration",
      "DataRate", "FileSizeGB"],
   mkSection "Capture Chain" "Capture Chain"
     ["DigitizationDate", "OperatorName", "PlaybackDevice", "TBCModel",
      "FrameSynchronizer", "CaptureHardware", "CaptureSoftware",
      "SignalPathNotes", "AudioDelayApplied", "IssuesDuringCapture"],
   mkSection "Preservation" "Preservation"
     ["SourceProvenance", "PreservationActions", "MigrationHistory",
      "ErrorReports", "StorageLocation", "BackupDetails"]]

/-- `IMAGE_SECTIONS`. -/
def IMAGE_SECTIONS : List SectionDefinition :=
  [mkSection "Administrative" "Administrative"
     ["Title", "Identifier", "CollectionName", "AcquisitionMethod",
      "DonorSourceContact", "Contributors", "DateOfCreation", "RightsHolder",
      "AccessConditions", "HoldingInstitution", "CopyRightStatus",
      "UserRestrictions"],
   mkSection "Descriptive" "Descriptive"
     ["Identifier", "Title", "Keywords", "Genre", "Creator", "Languages",
      "GeographicLocation", "EventDate", "PeopleInPhoto", "Description"],
   mkSection "Technical Original" "Technical Original"
     ["Format", "ConditionNotes"],
   mkSection "Technical Master" "Technical Master"
     ["FileFormat", "BitDepth", "WidthHeight", "ColorSpace", "DPI",
      "FileSizeGB", "Checksum"],
   mkSection "Technical Access Copy" "Technical Access Copy"
     ["FileFormat", "BitDepth", "WidthHeight", "DPI", "FileSizeGB"],
   mkSection "Capture Chain" "Capture Chain"
     ["DigitizationDate", "OperatorName", "ScannerModel"],
   mkSection "Preservation" "Preservation"
     ["ErrorReports", "StorageLocation", "BackupDetails"]]

/-- `SCHEMA_BY_MEDIA_TYPE`. -/
def SCHEMA_BY_MEDIA_TYPE : List (String × List SectionDefinition) :=
  [("video", VIDEO_AUDIO_SECTIONS),
   ("audio", VIDEO_AUDIO_SECTIONS),
   ("image", IMAGE_SECTIONS)]

/-- `get_default_sections(media_type)`: schema for the lower-cased media
type, falling back to the video/audio layout (the Python deep copy is
irrelevant in a pure model). -/
def get_default_sections (media_type : String) : List SectionDefinition :=
  (dictGet SCHEMA_BY_MEDIA_TYPE (pyLower media_type)).getD VIDEO_AUDIO_SECTIONS

/-- `create_empty_record`, with its call `get_default_sections()` corrected
to `get_default_sections(media_type)`: as written the source passes no
argument to a function whose `media_type` parameter is required, so every
call raises `TypeError`; the docstring, the annotation and every caller
make the intended call unambiguous. -/
def create_empty_record_intended (media_type : String) : MetadataRecord :=
  { title := ""
    media_type := media_type
    sections :=
      (get_default_sections media_type).map fun d =>
        { name := d.name
          fields := d.fields.map fun f => (f, "")
          color := some d.color }
    media_path := "" }

/-! ## Schema normalizer (`ui/streamlit_app.py`, `ensure_default_fields`) -/

/-- The dict comprehension `{section.name: section for section in
record.sections}` followed by `.get(name)`: with duplicate names the later
binding wins, so this is the last section bearing exactly that name. -/
def section_map_get (sections : List MetadataSection) (name : String) :
    Option MetadataSection :=
  sections.reverse.find? fun s => s.name = name

/-- Python truthiness of an optional string (`if not existing.color`). -/
def pyTruthyColor : Option String → Bool
  | none => false
  | some c => decide (c ≠ "")

/-- One iteration of the `ensure_default_fields` loop: the normalized
section produced for schema definition `d` from the record's sections. -/
def apply_definition (d : SectionDefinition) (sections : List MetadataSection) :
    MetadataSection :=
  match section_map_get sections d.name with
  | some existing =>
      { existing with
        fields := d.fields.foldl (fun fs f => dictSetdefault fs f "") existing.fields
        color := if pyTruthyColor existing.color then existing.color else some d.color }
  | none =>
      { name := d.name
        fields := d.fields.map fun f => (f, "")
        color := some d.color }

/-- `ensure_default_fields`: rebuild the section list from the schema of
the record's media type (the Python version mutates `record.sections` in
place; the pure model returns the updated record). -/
def ensure_default_fields (r : MetadataRecord) : MetadataRecord :=
  { r with
    sections :=
      (get_default_sections r.media_type).map fun d => apply_definition d r.sections }

/-! ## Persistence codec (`services/xml_service.py`)

The XML document is modelled structurally: `XmlDoc` is the element tree
`save_record` writes and `load_record` reads.  `ElementTree` round-trips
this shape faithfully through bytes; the one collapse it performs —
element text `""` serializes to an absent text node, re-read as `None`,
and `load_record` folds both back to `""` via `findtext`/`(text or "")` —
is reflected by modelling text as a plain `String`. -/

/-- A `<field name=...>text</field>` element. -/
structure XmlField where
  name : String
  text : String
deriving DecidableEq

/-- A `<section name=... [color=...]>` element. -/
structure XmlSection where
  name : String
  color : Option String
  fields : List XmlField
deriving DecidableEq

/-- The `<metadata mediaType=...>` document written by `save_record`. -/
structure XmlDoc where
  mediaType : String
  title : String
  mediaPath : String
  sections : List XmlSection
deriving DecidableEq

/-- `save_record` (the document it writes; path resolution is I/O glue):
the title is stripped, a falsy color produces no `color` attribute, field
values are written as-is. -/
def save_record (r : MetadataRecord) : XmlDoc :=
  { mediaType := r.media_type
    title := pyStrip r.title
    mediaPath := r.media_path
    sections :=
      r.sections.map fun s =>
        { name := s.name
          color :=
            match s.color with
            | some c => if c = "" then none else some c
            | none => none
          fields := s.fields.map fun fv => ⟨fv.1, fv.2⟩ } }

/-- `load_record` applied to a parsed document: field values are stripped
into a dict, the media path is taken only when truthy and then stripped. -/
def load_record (d : XmlDoc) : MetadataRecord :=
  { title := d.title
    media_type := d.mediaType
    sections :=
      d.sections.map fun s =>
        { name := s.name
          color := s.color
          fields := s.fields.foldl (fun m f => dictInsert m f.name (pyStrip f.text)) [] }
    media_path := if d.mediaPath = "" then "" else pyStrip d.mediaPath }

/-! ## Search engine (`services/search_service.py`)

A folder is `Option (List FsEntry)` — `none` when the folder does not
exist; an entry whose `content` is `none` models a file `load_record`
fails on (`ET.ParseError` etc.), since loading an already-parsed tree
cannot fail. -/

/-- One file in the scanned folder. -/
structure FsEntry where
  path : String
  content : Option XmlDoc
deriving DecidableEq

/-- `Path.name`: the final path component. -/
def pathName (p : String) : String :=
  ⟨(p.data.reverse.takeWhile fun c => c ≠ '/').reverse⟩

/-- `Path.stem` (pathlib rule): the name loses its last `.`-suffix only
when the last dot is neither the first nor the last character. -/
def pathStem (p : String) : String :=
  let n := (pathName p).data
  match n.reverse.findIdx? fun c => c = '.' with
  | none => ⟨n⟩
  | some j =>
      let i := n.length - 1 - j
      if 0 < i ∧ i < n.length - 1 then ⟨n.take i⟩ else ⟨n⟩

/-- `sorted(folder.glob("*.xml"))`: the `.xml` entries in lexicographic
path order. -/
def xmlCandidates (entries : List FsEntry) : List FsEntry :=
  List.insertionSort (fun a b => a.path ≤ b.path)
    (entries.filter fun e => pyEndsWith e.path ".xml")

/-- The per-record filter stage of `search`: vacuously true when no
filters were supplied, else AND/OR over the per-filter evaluations, each
comparing the stripped lower-cased keyword against the lower-cased
flattened value at the composite key (absent key ⇒ `""`). -/
def filters_pass (filters : List FilterCriteria) (match_all : Bool)
    (flattened : List (String × String)) : Bool :=
  if filters.isEmpty then true
  else
    let evaluations :=
      filters.map fun c =>
        pyIn (pyLower (pyStrip c.keyword)) (pyLower ((dictGet flattened c.key).getD ""))
    (match_all && evaluations.all id) || (!match_all && evaluations.any id)

/-- The free-text stage of `search`: the normalized query must occur in
the title, the media type, the file stem, the file name, or any flattened
value (all lower-cased). -/
def text_match (tqn : String) (e : FsEntry) (record : MetadataRecord)
    (flattened : List (String × String)) : Bool :=
  ([record.title, record.media_type, pathStem e.path, pathName e.path] ++
      flattened.map fun fv => fv.2).any
    fun v => pyIn tqn (pyLower v)

/-- The body of the `search` scan for one candidate file: skip unloadable
documents, then apply the filter stage and the text stage. -/
def search_step (filters : List FilterCriteria) (match_all : Bool) (tqn : String)
    (e : FsEntry) : Option (String × MetadataRecord) :=
  match e.content with
  | none => none
  | some doc =>
      let record := load_record doc
      let flattened := record.flatten
      if !filters_pass filters match_all flattened then none
      else if tqn = "" then some (e.path, record)
      else if text_match tqn e record flattened then some (e.path, record)
      else none

/-- `SearchService.search`. -/
def search (folder : Option (List FsEntry)) (filters : List FilterCriteria)
    (match_all : Bool) (text_query : Option String) :
    List (String × MetadataRecord) :=
  match folder with
  | none => []
  | some entries =>
      let tqn := pyLower (pyStrip (text_query.getD ""))
      (xmlCandidates entries).filterMap (search_step filters match_all tqn)

/-- The body of the `find_metadata_for_media` scan for one candidate. -/
def find_step (resolve : String → String) (target : String) (e : FsEntry) :
    Option (String × MetadataRecord) :=
  match e.content with
  | none => none
  | some doc =>
      let record := load_record doc
      if record.media_path = "" then none
      else if resolve record.media_path = target then some (e.path, record)
      else none

/-- `XmlService.find_metadata_for_media`: `resolve` models the ambient
`Path(...).expanduser().resolve()` environment as an explicit parameter
(with the source's bare-`Path` fallback on resolution failure absorbed
into it, since the model is total). -/
def find_metadata_for_media (resolve : String → String) (entries : List FsEntry)
    (media_path : String) : Option (String × MetadataRecord) :=
  (xmlCandidates entries).findSome? (find_step resolve (resolve media_path))

/-! ## Generic lemmas about the dict model -/

theorem dictGet_eq_none_iff {α : Type} (l : List (String × α)) (k : String) :
    dictGet l k = none ↔ k ∉ l.map Prod.fst := by
  induction l with
  | nil => simp [dictGet]
  | cons p t ih =>
      obtain ⟨k', v⟩ := p
      by_cases h : k' = k <;> simp [dictGet, h, ih, Ne.symm]

theorem mem_of_dictGet_eq_some {α : Type} {l : List (String × α)} {k : String} {v : α}
    (h : dictGet l k = some v) : (k, v) ∈ l := by
  induction l with
  | nil => simp [dictGet] at h
  | cons p t ih =>
      obtain ⟨k', v'⟩ := p
      by_cases hk : k' = k
      · subst hk
        simp [dictGet] at h
        simp [h]
      · simp [dictGet, hk] at h
        exact List.mem_cons_of_mem _ (ih h)

theorem dictGet_eq_some_of_mem_nodup {α : Type} {l : List (String × α)} {k : String}
    {v : α} (hnd : (l.map Prod.fst).Nodup) (hm : (k, v) ∈ l) : dictGet l k = some v := by
  induction l with
  | nil => simp at hm
  | cons p t ih =>
      obtain ⟨k', v'⟩ := p
      simp only [List.map_cons, List.nodup_cons] at hnd
      rcases List.mem_cons.mp hm with h | h
      · cases h
        simp [dictGet]
      · have hk : k' ≠ k := by
          intro he
          exact hnd.1 (he ▸ (List.mem_map.mpr ⟨(k, v), h, rfl⟩))
        simp [dictGet, hk]
        exact ih hnd.2 h

theorem dictGet_append_of_some {α : Type} {l₁ : List (String × α)} (l₂ : List (String × α))
    {k : String} {v : α} (h : dictGet l₁ k = some v) : dictGet (l₁ ++ l₂) k = some v := by
  induction l₁ with
  | nil => simp [dictGet] at h
  | cons p t ih =>
      obtain ⟨k', v'⟩ := p
      by_cases hk : k' = k <;> simp_all [dictGet]

theorem dictGet_append_of_none {α : Type} {l₁ : List (String × α)} (l₂ : List (String × α))
    {k : String} (h : dictGet l₁ k = none) : dictGet (l₁ ++ l₂) k = dictGet l₂ k := by
  induction l₁ with
  | nil => simp
  | cons p t ih =>
      obtain ⟨k', v'⟩ := p
      by_cases hk : k' = k <;> simp_all [dictGet]

theorem dictInsert_of_get_none {α : Type} {l : List (String × α)} {k : String}
    (v : α) (h : dictGet l k = none) : dictInsert l k v = l ++ [(k, v)] := by
  induction l with
  | nil => simp [dictInsert]
  | cons p t ih =>
      obtain ⟨k', v'⟩ := p
      by_cases hk : k' = k <;> simp_all [dictGet, dictInsert]

/-- Folding dict assignment of transformed values over a list of fresh,
pairwise distinct keys appends the transformed bindings in order. -/
theorem foldl_dictInsert_nodup {α : Type} (w : String × α → α) :
    ∀ (l acc : List (String × α)), (l.map Prod.fst).Nodup →
      (∀ p ∈ l, dictGet acc p.1 = none) →
      l.foldl (fun m p => dictInsert m p.1 (w p)) acc = acc ++ l.map fun p => (p.1, w p)
  | [], acc, _, _ => by simp
  | p :: t, acc, hnd, hdisj => by
      obtain ⟨k, v⟩ := p
      simp only [List.map_cons, List.nodup_cons] at hnd
      have hacc : dictGet acc k = none := hdisj (k, v) (List.mem_cons_self _ _)
      have hstep : dictInsert acc k (w (k, v)) = acc ++ [(k, w (k, v))] :=
        dictInsert_of_get_none _ hacc
      simp only [List.foldl_cons, hstep]
      rw [foldl_dictInsert_nodup w t (acc ++ [(k, w (k, v))]) hnd.2]
      · simp
      · intro q hq
        have hq1 : dictGet acc q.1 = none := hdisj q (List.mem_cons_of_mem _ hq)
        rw [dictGet_append_of_none _ hq1]
        have hne : k ≠ q.1 := by
          intro he
          exact hnd.1 (he ▸ List.mem_map.mpr ⟨q, hq, rfl⟩)
        simp [dictGet, hne]

theorem dictSetdefault_of_get_some {α : Type} {l : List (String × α)} {k : String}
    {v₀ : α} (v : α) (h : dictGet l k = some v₀) : dictSetdefault l k v = l := by
  simp [dictSetdefault, dictContains, h, Option.isSome]

theorem dictSetdefault_of_get_none {α : Type} {l : List (String × α)} {k : String}
    (v : α) (h : dictGet l k = none) : dictSetdefault l k v = l ++ [(k, v)] := by
  simp [dictSetdefault, dictContains, h, Option.isSome]

/-- `setdefault` folds preserve every existing binding. -/
theorem dictGet_foldl_setdefault_of_some {α : Type} (v : α) :
    ∀ (fs : List String) (l : List (String × α)) (k : String) (v₀ : α),
      dictGet l k = some v₀ →
      dictGet (fs.foldl (fun m f => dictSetdefault m f v) l) k = some v₀
  | [], _, _, _, h => h
  | f :: t, l, k, v₀, h => by
      simp only [List.foldl_cons]
      apply dictGet_foldl_setdefault_of_some v t _ k v₀
      by_cases hc : dictContains l f
      · simpa [dictSetdefault, hc] using h
      · simp only [dictSetdefault, hc, if_neg, Bool.false_eq_true, not_false_iff, if_false]
        exact dictGet_append_of_some _ h

/-- After a `setdefault` fold every folded key is bound; a previously
unbound key is bound to the default. -/
theorem dictGet_foldl_setdefault_of_none {α : Type} (v : α) :
    ∀ (fs : List String) (l : List (String × α)) (k : String),
      dictGet l k = none → k ∈ fs →
      dictGet (fs.foldl (fun m f => dictSetdefault m f v) l) k = some v
  | [], _, _, _, hm => by simp at hm
  | f :: t, l, k, h, hm => by
      simp only [List.foldl_cons]
      by_cases hk : f = k
      · subst hk
        have : dictSetdefault l f v = l ++ [(f, v)] := dictSetdefault_of_get_none v h
        rw [this]
        apply dictGet_foldl_setdefault_of_some
        rw [dictGet_append_of_none _ h]
        simp [dictGet]
      · have hmem : k ∈ t := by
          rcases List.mem_cons.mp hm with h' | h'
          · exact absurd h'.symm hk
          · exact h'
        apply dictGet_foldl_setdefault_of_none v t _ k _ hmem
        by_cases hc : dictContains l f
        · simpa [dictSetdefault, hc] using h
        · simp only [dictSetdefault, hc, Bool.false_eq_true, not_false_iff, if_false]
          rw [dictGet_append_of_none _ h]
          simp [dictGet, hk]

/-- A `setdefault` fold over keys that are all already bound is a no-op. -/
theorem foldl_setdefault_of_all_contains {α : Type} (v : α) :
    ∀ (fs : List String) (l : List (String × α)),
      (∀ f ∈ fs, dictContains l f = true) →
      fs.foldl (fun m f => dictSetdefault m f v) l = l
  | [], l, _ => rfl
  | f :: t, l, h => by
      have hc : dictContains l f = true := h f (List.mem_cons_self _ _)
      simp only [List.foldl_cons, dictSetdefault, hc, if_true]
      exact foldl_setdefault_of_all_contains v t l fun g hg => h g (List.mem_cons_of_mem _ hg)

/-- A `setdefault` fold only appends: the original dict is a prefix. -/
theorem foldl_setdefault_append {α : Type} (v : α) :
    ∀ (fs : List String) (l : List (String × α)),
      ∃ ext, fs.foldl (fun m f => dictSetdefault m f v) l = l ++ ext
  | [], l => ⟨[], by simp⟩
  | f :: t, l => by
      simp only [List.foldl_cons]
      by_cases hc : dictContains l f
      · simpa [dictSetdefault, hc] using foldl_setdefault_append v t l
      · obtain ⟨ext, hext⟩ := foldl_setdefault_append v t (l ++ [(f, v)])
        have hsd : dictSetdefault l f v = l ++ [(f, v)] := by simp [dictSetdefault, hc]
        exact ⟨(f, v) :: ext, by rw [hsd, hext]; simp⟩

theorem forall₂_map_self {α β : Type} (P : α → β → Prop) (g : α → β) :
    ∀ (l : List α), (∀ x ∈ l, P x (g x)) → List.Forall₂ P l (l.map g)
  | [], _ => List.Forall₂.nil
  | x :: t, h => by
      exact List.Forall₂.cons (h x (List.mem_cons_self _ _))
        (forall₂_map_self P g t fun y hy => h y (List.mem_cons_of_mem _ hy))

/-! ## Facts about the concrete schema catalog -/

/-- `get_default_sections` always yields one of the two concrete layouts. -/
theorem get_default_sections_cases (media_type : String) :
    get_default_sections media_type = VIDEO_AUDIO_SECTIONS ∨
      get_default_sections media_type = IMAGE_SECTIONS := by
  simp only [get_default_sections, SCHEMA_BY_MEDIA_TYPE, dictGet]
  split_ifs <;> simp

/-- Each schema layout lists pairwise distinct section names. -/
theorem schema_names_nodup (media_type : String) :
    ((get_default_sections media_type).map SectionDefinition.name).Nodup := by
  rcases get_default_sections_cases media_type with h | h <;> rw [h] <;> decide

/-- Every schema section carries a non-empty (truthy) color. -/
theorem schema_colors_truthy (media_type : String) :
    ∀ d ∈ get_default_sections media_type, d.color ≠ "" := by
  rcases get_default_sections_cases media_type with h | h <;> rw [h] <;> decide

/-- Unknown media types fall back to the video/audio layout. -/
theorem get_default_sections_fallback (media_type : String)
    (h : pyLower media_type ∉ ["video", "audio", "image"]) :
    get_default_sections media_type = VIDEO_AUDIO_SECTIONS := by
  simp only [List.mem_cons, not_or] at h
  have h1 : "video" ≠ pyLower media_type := fun he => h.1 he.symm
  have h2 : "audio" ≠ pyLower media_type := fun he => h.2.1 he.symm
  have h3 : "image" ≠ pyLower media_type := fun he => h.2.2.1 he.symm
  simp [get_default_sections, SCHEMA_BY_MEDIA_TYPE, dictGet, h1, h2, h3]

/-! ## C2 — `create_empty_record` -/

/-- C2: `create_empty_record(m)` (with the missing `media_type` argument
supplied as intended — the source as written raises `TypeError` on every
call, see `create_empty_record_intended`) returns a record with empty
title, empty media path, media type `m`, and one section per definition
of `m`'s schema in schema order, each with the schema color and every
schema field mapped to the empty string; unknown media types fall back to
the video/audio layout. -/
theorem create_empty_record_spec (media_type : String) :
    (create_empty_record_intended media_type).title = "" ∧
    (create_empty_record_intended media_type).media_path = "" ∧
    (create_empty_record_intended media_type).media_type = media_type ∧
    List.Forall₂
      (fun (d : SectionDefinition) (s : MetadataSection) =>
        s.name = d.name ∧ s.color = some d.color ∧ s.fields = d.fields.map fun f => (f, ""))
      (get_default_sections media_type)
      (create_empty_record_intended media_type).sections ∧
    (pyLower media_type ∉ ["video", "audio", "image"] →
      get_default_sections media_type = VIDEO_AUDIO_SECTIONS) := by
  refine ⟨rfl, rfl, rfl, ?_, get_default_sections_fallback media_type⟩
  exact forall₂_map_self _ _ _ fun d _ => ⟨rfl, rfl, rfl⟩

/-- Witness for `create_empty_record_spec` at the unknown media type
`"document"`, discharging the fallback hypothesis concretely. -/
theorem create_empty_record_spec_witness :
    (create_empty_record_intended "document").title = "" ∧
    (create_empty_record_intended "document").media_path = "" ∧
    (create_empty_record_intended "document").media_type = "document" ∧
    List.Forall₂
      (fun (d : SectionDefinition) (s : MetadataSection) =>
        s.name = d.name ∧ s.color = some d.color ∧ s.fields = d.fields.map fun f => (f, ""))
      (get_default_sections "document")
      (create_empty_record_intended "document").sections ∧
    get_default_sections "document" = VIDEO_AUDIO_SECTIONS := by
  obtain ⟨h1, h2, h3, h4, h5⟩ := create_empty_record_spec "document"
  exact ⟨h1, h2, h3, h4, h5 (by decide)⟩

/-! ## C1 — round-trip of the persistence codec -/

/-- All `(section name, field name, value)` triples of a record, in
section-then-field order. -/
def recordTriples (r : MetadataRecord) : List (String × String × String) :=
  r.sections.flatMap fun s => s.fields.map fun fv => (s.name, fv.1, fv.2)

/-- What one loaded-back section looks like: values stripped, falsy
colors dropped. -/
def roundtripSection (s : MetadataSection) : MetadataSection :=
  { name := s.name
    fields := s.fields.map fun fv => (fv.1, pyStrip fv.2)
    color :=
      match s.color with
      | some c => if c = "" then none else some c
      | none => none }

theorem load_save_sections (r : MetadataRecord)
    (h : ∀ s ∈ r.sections, (s.fields.map Prod.fst).Nodup) :
    (load_record (save_record r)).sections = r.sections.map roundtripSection := by
  simp only [load_record, save_record, List.map_map]
  apply List.map_congr_left
  intro s hs
  simp only [Function.comp]
  congr 1
  rw [List.foldl_map]
  exact foldl_dictInsert_nodup (fun p => pyStrip p.2) s.fields [] (h s hs) (fun _ _ => rfl)

/-- C1 counterexample: the claim fails as stated — saving strips the
title, so a title with surrounding whitespace does not survive the
round-trip unchanged. -/
theorem roundtrip_cex :
    (load_record (save_record ⟨" x ", "video", [], ""⟩)).title ≠
      (⟨" x ", "video", [], ""⟩ : MetadataRecord).title := by decide

/-- C1 (amended): for every record whose sections have duplicate-free
field names, `load_record ∘ save_record` preserves the media type and
returns the title, the media path and every field value stripped of
surrounding whitespace: the multiset of `(section, field, value)` triples
of the reloaded record is the original multiset with stripped values. -/
theorem roundtrip_spec (r : MetadataRecord)
    (h : ∀ s ∈ r.sections, (s.fields.map Prod.fst).Nodup) :
    (load_record (save_record r)).media_type = r.media_type ∧
    (load_record (save_record r)).title = pyStrip r.title ∧
    (load_record (save_record r)).media_path = pyStrip r.media_path ∧
    (recordTriples (load_record (save_record r)) : Multiset (String × String × String)) =
      ((recordTriples r).map fun t => (t.1, t.2.1, pyStrip t.2.2) :
        List (String × String × String)) := by
  refine ⟨rfl, rfl, ?_, ?_⟩
  · by_cases hp : r.media_path = ""
    · simp [load_record, save_record, hp]
      decide
    · simp [load_record, save_record, hp]
  · have hs := load_save_sections r h
    have hl : recordTriples (load_record (save_record r)) =
        (recordTriples r).map fun t => (t.1, t.2.1, pyStrip t.2.2) := by
      simp only [recordTriples, hs, List.flatMap_map, List.map_flatMap]
      apply List.flatMap_congr
      intro s hs'
      simp [roundtripSection, Function.comp, List.map_map]
    exact congrArg _ hl

/-- Concrete record exercising the round-trip: whitespace in the title,
a field value and the media path, plus an empty-string color. -/
def roundtripSample : MetadataRecord :=
  ⟨" x ", "video", [⟨"S", [("F", " a "), ("G", "b")], some ""⟩], " p "⟩

/-- Witness for `roundtrip_spec` at `roundtripSample`. -/
theorem roundtrip_spec_witness :
    (load_record (save_record roundtripSample)).media_type = roundtripSample.media_type ∧
    (load_record (save_record roundtripSample)).title = pyStrip roundtripSample.title ∧
    (load_record (save_record roundtripSample)).media_path =
      pyStrip roundtripSample.media_path ∧
    (recordTriples (load_record (save_record roundtripSample)) :
        Multiset (String × String × String)) =
      ((recordTriples roundtripSample).map fun t => (t.1, t.2.1, pyStrip t.2.2) :
        List (String × String × String)) :=
  roundtrip_spec roundtripSample (by decide)

/-! ## Normalizer lemmas (C3, C4, C10) -/

theorem section_map_get_name {secs : List MetadataSection} {n : String}
    {s : MetadataSection} (h : section_map_get secs n = some s) : s.name = n := by
  have := List.find?_some h
  simpa using this

theorem section_map_get_mem {secs : List MetadataSection} {n : String}
    {s : MetadataSection} (h : section_map_get secs n = some s) : s ∈ secs := by
  have := List.mem_of_find?_eq_some h
  simpa [List.mem_reverse] using this

theorem section_map_get_eq_none_iff (secs : List MetadataSection) (n : String) :
    section_map_get secs n = none ↔ ∀ s ∈ secs, s.name ≠ n := by
  unfold section_map_get
  rw [List.find?_eq_none]
  simp [List.mem_reverse]

/-- With pairwise distinct section names, the `{name: section}` dict lookup
finds exactly the member bearing that name. -/
theorem section_map_get_of_names_nodup :
    ∀ {l : List MetadataSection}, (l.map MetadataSection.name).Nodup →
      ∀ {t : MetadataSection}, t ∈ l → section_map_get l t.name = some t := by
  intro l
  induction l with
  | nil => intro _ t ht; simp at ht
  | cons s rest ih =>
      intro hnd t ht
      simp only [List.map_cons, List.nodup_cons] at hnd
      unfold section_map_get
      rw [List.reverse_cons, List.find?_append]
      rcases List.mem_cons.mp ht with h | h
      · subst h
        have hnone : (rest.reverse).find? (fun s' => s'.name = t.name) = none := by
          rw [List.find?_eq_none]
          intro a ha
          simp only [decide_eq_true_eq]
          intro he
          exact hnd.1 (List.mem_map.mpr ⟨a, List.mem_reverse.mp ha, he⟩)
        simp [hnone, List.find?]
      · have := ih hnd.2 h
        unfold section_map_get at this
        rw [this]
        rfl

theorem apply_definition_name (d : SectionDefinition) (secs : List MetadataSection) :
    (apply_definition d secs).name = d.name := by
  unfold apply_definition
  cases h : section_map_get secs d.name with
  | none => rfl
  | some s => simpa using section_map_get_name h

theorem ensure_default_fields_names (r : MetadataRecord) :
    ((ensure_default_fields r).sections.map MetadataSection.name) =
      (get_default_sections r.media_type).map SectionDefinition.name := by
  simp [ensure_default_fields, List.map_map, Function.comp, apply_definition_name]

theorem dictGet_map_empty :
    ∀ (fs : List String) (f : String), f ∈ fs →
      dictGet (fs.map fun f' => (f', "")) f = some ""
  | [], f, h => by simp at h
  | g :: t, f, h => by
      by_cases hg : g = f
      · simp [dictGet, hg]
      · rcases List.mem_cons.mp h with h' | h'
        · exact absurd h'.symm hg
        · simpa [dictGet, hg] using dictGet_map_empty t f h'

/-- Every schema field is bound in the section the normalizer emits. -/
theorem apply_definition_contains (d : SectionDefinition) (secs : List MetadataSection)
    {f : String} (hf : f ∈ d.fields) :
    dictContains (apply_definition d secs).fields f = true := by
  unfold apply_definition
  cases h : section_map_get secs d.name with
  | none =>
      simp only [dictContains]
      rw [dictGet_map_empty d.fields f hf]
      rfl
  | some s =>
      simp only [dictContains]
      cases hg : dictGet s.fields f with
      | some v =>
          rw [dictGet_foldl_setdefault_of_some "" d.fields s.fields f v hg]
          rfl
      | none =>
          rw [dictGet_foldl_setdefault_of_none "" d.fields s.fields f hg hf]
          rfl

/-- The section the normalizer emits carries a truthy color whenever the
schema color is non-empty. -/
theorem apply_definition_color_truthy (d : SectionDefinition)
    (secs : List MetadataSection) (hc : d.color ≠ "") :
    pyTruthyColor (apply_definition d secs).color = true := by
  unfold apply_definition
  cases h : section_map_get secs d.name with
  | none => simp [pyTruthyColor, hc]
  | some s =>
      dsimp only
      by_cases htc : pyTruthyColor s.color = true
      · rw [if_pos htc]
        exact htc
      · rw [if_neg htc]
        simp [pyTruthyColor, hc]

/-- Re-normalizing leaves each already-normalized section unchanged. -/
theorem apply_definition_stable (d : SectionDefinition) (t : MetadataSection)
    (secs : List MetadataSection)
    (hget : section_map_get secs d.name = some t)
    (hfields : ∀ f ∈ d.fields, dictContains t.fields f = true)
    (hcolor : pyTruthyColor t.color = true) :
    apply_definition d secs = t := by
  unfold apply_definition
  rw [hget]
  simp only [hcolor, if_true]
  rw [foldl_setdefault_of_all_contains "" d.fields t.fields hfields]

/-! ## C3 — normalization postcondition -/

/-- C3: `ensure_default_fields` emits exactly the schema's section names
in schema order; schema sections with no exactly-named counterpart in the
record are created fresh with every field empty; record sections whose
name is not a schema name are dropped; and the surviving section for each
schema name (the last record section bearing it, which is what the
`{name: section}` dict keeps) retains every pre-existing field value,
gains each schema field it lacked bound to `""`, and takes the schema
color exactly when its own color was falsy. -/
theorem ensure_default_fields_post (r : MetadataRecord) :
    ((ensure_default_fields r).sections.map MetadataSection.name =
      (get_default_sections r.media_type).map SectionDefinition.name) ∧
    (∀ d ∈ get_default_sections r.media_type,
      (∀ s ∈ r.sections, s.name ≠ d.name) →
      (⟨d.name, d.fields.map fun f => (f, ""), some d.color⟩ : MetadataSection) ∈
        (ensure_default_fields r).sections) ∧
    (∀ s ∈ r.sections,
      s.name ∉ (get_default_sections r.media_type).map SectionDefinition.name →
      ∀ t ∈ (ensure_default_fields r).sections, t.name ≠ s.name) ∧
    (∀ d ∈ get_default_sections r.media_type, ∀ s,
      section_map_get r.sections d.name = some s →
      ∃ t ∈ (ensure_default_fields r).sections, t.name = d.name ∧
        (∀ f v, dictGet s.fields f = some v → dictGet t.fields f = some v) ∧
        (∀ f ∈ d.fields, dictGet s.fields f = none → dictGet t.fields f = some "") ∧
        t.color = (if pyTruthyColor s.color then s.color else some d.color)) := by
  refine ⟨ensure_default_fields_names r, ?_, ?_, ?_⟩
  · intro d hd hno
    have hn : section_map_get r.sections d.name = none :=
      (section_map_get_eq_none_iff _ _).mpr hno
    have hfresh : apply_definition d r.sections =
        ⟨d.name, d.fields.map fun f => (f, ""), some d.color⟩ := by
      unfold apply_definition
      rw [hn]
    exact List.mem_map.mpr ⟨d, hd, hfresh⟩
  · intro s hs hnotin t ht
    obtain ⟨d, hd, hdt⟩ := List.mem_map.mp ht
    intro he
    apply hnotin
    rw [← he, ← hdt, apply_definition_name]
    exact List.mem_map.mpr ⟨d, hd, rfl⟩
  · intro d hd s hget
    have hdef : apply_definition d r.sections =
        { s with
          fields := d.fields.foldl (fun fs f => dictSetdefault fs f "") s.fields
          color := if pyTruthyColor s.color then s.color else some d.color } := by
      unfold apply_definition
      rw [hget]
    refine ⟨apply_definition d r.sections, List.mem_map.mpr ⟨d, hd, rfl⟩,
      apply_definition_name d _, ?_, ?_, ?_⟩
    · intro f v hv
      rw [hdef]
      exact dictGet_foldl_setdefault_of_some "" d.fields s.fields f v hv
    · intro f hf hnone
      rw [hdef]
      exact dictGet_foldl_setdefault_of_none "" d.fields s.fields f hnone hf
    · rw [hdef]

/-- Concrete record exercising `ensure_default_fields_post`: one schema
section present with a stray field and no color, one stale section, the
rest of the schema absent. -/
def normalizeSample : MetadataRecord :=
  ⟨"t", "video",
    [⟨"Descriptive", [("Stray", "keep"), ("Title", "x")], none⟩,
     ⟨"LegacySection", [("Old", "y")], some "#111111"⟩],
    ""⟩

/-- Witness for `ensure_default_fields_post` at `normalizeSample`,
discharging each embedded hypothesis on concrete data: the absent
`Administrative` section appears fresh and empty, the stale
`LegacySection` is gone, and the surviving `Descriptive` section keeps
its stray field, gains `Summary` as `""`, and inherits the schema color. -/
theorem ensure_default_fields_post_witness :
    ((ensure_default_fields normalizeSample).sections.map MetadataSection.name =
      (get_default_sections "video").map SectionDefinition.name) ∧
    ((⟨"Administrative",
        (VIDEO_AUDIO_SECTIONS.get ⟨0, by decide⟩).fields.map fun f => (f, ""),
        some "#FFA500"⟩ : MetadataSection) ∈
      (ensure_default_fields normalizeSample).sections) ∧
    (∀ t ∈ (ensure_default_fields normalizeSample).sections, t.name ≠ "LegacySection") ∧
    (∃ t ∈ (ensure_default_fields normalizeSample).sections, t.name = "Descriptive" ∧
      dictGet t.fields "Stray" = some "keep" ∧
      dictGet t.fields "Summary" = some "" ∧
      t.color = some "#9370DB") := by
  obtain ⟨h1, h2, h3, h4⟩ := ensure_default_fields_post normalizeSample
  refine ⟨h1, ?_, ?_, ?_⟩
  · exact h2 (VIDEO_AUDIO_SECTIONS.get ⟨0, by decide⟩) (by decide) (by decide)
  · intro t ht
    exact h3 ⟨"LegacySection", [("Old", "y")], some "#111111"⟩ (by decide) (by decide) t ht
  · obtain ⟨t, ht, hname, hkeep, hgain, hcolor⟩ :=
      h4 (VIDEO_AUDIO_SECTIONS.get ⟨1, by decide⟩)
        (by decide)
        ⟨"Descriptive", [("Stray", "keep"), ("Title", "x")], none⟩
        (by decide)
    refine ⟨t, ht, hname, hkeep "Stray" "keep" (by decide), hgain "Summary" (by decide) (by decide), ?_⟩
    rw [hcolor]
    decide

/-! ## C4 — normalization is total and idempotent -/

/-- C4: `ensure_default_fields` is a total function of the record (the
model needs no fallibility: every branch of the source is defined), and
it is idempotent — normalizing a normalized record with the same schema
changes nothing. -/
theorem ensure_default_fields_idem (r : MetadataRecord) :
    ensure_default_fields (ensure_default_fields r) = ensure_default_fields r := by
  have houtnames : ((ensure_default_fields r).sections.map MetadataSection.name).Nodup := by
    rw [ensure_default_fields_names r]
    exact schema_names_nodup r.media_type
  show ({ ensure_default_fields r with
      sections := (get_default_sections (ensure_default_fields r).media_type).map
        fun d => apply_definition d (ensure_default_fields r).sections } : MetadataRecord) =
    ensure_default_fields r
  have hmt : (ensure_default_fields r).media_type = r.media_type := rfl
  have hsec : (get_default_sections (ensure_default_fields r).media_type).map
      (fun d => apply_definition d (ensure_default_fields r).sections) =
      (ensure_default_fields r).sections := by
    rw [hmt]
    show _ = (get_default_sections r.media_type).map fun d => apply_definition d r.sections
    apply List.map_congr_left
    intro d hd
    have htmem : apply_definition d r.sections ∈ (ensure_default_fields r).sections :=
      List.mem_map.mpr ⟨d, hd, rfl⟩
    have hget : section_map_get (ensure_default_fields r).sections d.name =
        some (apply_definition d r.sections) := by
      have := section_map_get_of_names_nodup houtnames htmem
      rwa [apply_definition_name] at this
    exact apply_definition_stable d (apply_definition d r.sections) _ hget
      (fun f hf => apply_definition_contains d r.sections hf)
      (apply_definition_color_truthy d r.sections (schema_colors_truthy r.media_type d hd))
  calc ({ ensure_default_fields r with
        sections := (get_default_sections (ensure_default_fields r).media_type).map
          fun d => apply_definition d (ensure_default_fields r).sections } : MetadataRecord)
      = { ensure_default_fields r with sections := (ensure_default_fields r).sections } := by
        rw [hsec]
    _ = ensure_default_fields r := rfl

/-! ## C10 — case-sensitive matching in the normalizer -/

/-- The lower-cased section names of each schema layout are still
pairwise distinct, so a case variant of one schema name equals no other
schema name. -/
theorem schema_lower_names_nodup (media_type : String) :
    ((get_default_sections media_type).map fun d => pyLower d.name).Nodup := by
  rcases get_default_sections_cases media_type with h | h <;> rw [h] <;> decide

/-- The first schema section of the video/audio layout (`Administrative`). -/
def adminDef : SectionDefinition := VIDEO_AUDIO_SECTIONS.get ⟨0, by decide⟩

/-- Record holding both a case variant and the exact schema spelling. -/
def caseVariantBoth : MetadataRecord :=
  ⟨"t", "video",
    [⟨"administrative", [("Title", "keep")], none⟩,
     ⟨"Administrative", [("Foo", "bar")], none⟩],
    ""⟩

/-- C10 counterexample: the claim fails as stated — here the record also
contains the exact spelling `Administrative`, so the case-variant section
`administrative` is dropped but the schema slot is filled by the existing
exactly-named section, not by a fresh all-empty one. -/
theorem case_variant_cex :
    adminDef ∈ get_default_sections caseVariantBoth.media_type ∧
    (⟨"administrative", [("Title", "keep")], none⟩ : MetadataSection) ∈
      caseVariantBoth.sections ∧
    pyLower "administrative" = pyLower adminDef.name ∧
    "administrative" ≠ adminDef.name ∧
    (⟨adminDef.name, adminDef.fields.map fun f => (f, ""), some adminDef.color⟩ :
        MetadataSection) ∉
      (ensure_default_fields caseVariantBoth).sections := by decide

/-- C10 (amended): the normalizer matches record sections to schema
sections by exact, case-sensitive name equality even though `get_section`
matches case-insensitively; hence for every record containing a section
that differs from a schema section's name only in letter case — and no
section bearing the exact spelling — normalization drops that section
(no output section bears its name, so its field values are lost) and
replaces it with a fresh all-empty section under the schema's spelling,
while `get_section` does find a section under the schema's spelling. -/
theorem case_variant_dropped (r : MetadataRecord) (d : SectionDefinition)
    (s : MetadataSection)
    (hd : d ∈ get_default_sections r.media_type)
    (hs : s ∈ r.sections)
    (hlow : pyLower s.name = pyLower d.name)
    (hne : s.name ≠ d.name)
    (hnoexact : ∀ u ∈ r.sections, u.name ≠ d.name) :
    (r.get_section d.name).isSome = true ∧
    (⟨d.name, d.fields.map fun f => (f, ""), some d.color⟩ : MetadataSection) ∈
      (ensure_default_fields r).sections ∧
    (∀ t ∈ (ensure_default_fields r).sections, t.name ≠ s.name) := by
  refine ⟨?_, ?_, ?_⟩
  · unfold MetadataRecord.get_section
    rw [List.find?_isSome]
    exact ⟨s, hs, by simp [hlow]⟩
  · have hn : section_map_get r.sections d.name = none :=
      (section_map_get_eq_none_iff _ _).mpr hnoexact
    have hfresh : apply_definition d r.sections =
        ⟨d.name, d.fields.map fun f => (f, ""), some d.color⟩ := by
      unfold apply_definition
      rw [hn]
    exact List.mem_map.mpr ⟨d, hd, hfresh⟩
  · intro t ht he
    obtain ⟨d', hd', hdt⟩ := List.mem_map.mp ht
    have htname : t.name = d'.name := by rw [← hdt, apply_definition_name]
    have hlow' : pyLower d'.name = pyLower d.name := by
      rw [← htname, he, hlow]
    have : d' = d :=
      List.inj_on_of_nodup_map (schema_lower_names_nodup r.media_type) hd' hd hlow'
    exact hne (by rw [← he, htname, this])

/-- Record holding only the case variant of `Administrative`. -/
def caseVariantLone : MetadataRecord :=
  ⟨"t", "video", [⟨"administrative", [("Title", "keep")], none⟩], ""⟩

/-- Witness for `case_variant_dropped` at `caseVariantLone`. -/
theorem case_variant_dropped_witness :
    ((caseVariantLone.get_section adminDef.name).isSome = true ∧
      (⟨adminDef.name, adminDef.fields.map fun f => (f, ""), some adminDef.color⟩ :
          MetadataSection) ∈
        (ensure_default_fields caseVariantLone).sections ∧
      (∀ t ∈ (ensure_default_fields caseVariantLone).sections,
        t.name ≠ ("administrative" : String))) :=
  case_variant_dropped caseVariantLone adminDef
    ⟨"administrative", [("Title", "keep")], none⟩
    (by decide) (by decide) (by decide) (by decide) (by decide)

/-! ## C9 — flatten is lossless -/

/-- The flattened entries, before dict collapse: one `("S:F", v)` pair per
section field, in section-then-field order. -/
def flatEntries (r : MetadataRecord) : List (String × String) :=
  r.sections.flatMap fun s => s.fields.map fun fv => (s.name ++ ":" ++ fv.1, fv.2)

theorem foldl_sections_eq_foldl_entries :
    ∀ (secs : List MetadataSection) (acc : List (String × String)),
      secs.foldl
        (fun m s =>
          s.fields.foldl (fun m' fv => dictInsert m' (s.name ++ ":" ++ fv.1) fv.2) m)
        acc =
      (secs.flatMap fun s => s.fields.map fun fv => (s.name ++ ":" ++ fv.1, fv.2)).foldl
        (fun m kv => dictInsert m kv.1 kv.2) acc
  | [], _ => rfl
  | s :: rest, acc => by
      rw [List.foldl_cons, List.flatMap_cons, List.foldl_append, List.foldl_map]
      exact foldl_sections_eq_foldl_entries rest _

theorem flatten_eq_foldl_flatEntries (r : MetadataRecord) :
    r.flatten = (flatEntries r).foldl (fun m kv => dictInsert m kv.1 kv.2) [] :=
  foldl_sections_eq_foldl_entries r.sections []

/-- Splitting at the separating colon is unique when neither left part
contains a colon. -/
theorem colon_split_unique :
    ∀ (a₁ : List Char) {b₁ : List Char} (a₂ : List Char) {b₂ : List Char},
      (':' : Char) ∉ a₁ → (':' : Char) ∉ a₂ →
      a₁ ++ ':' :: b₁ = a₂ ++ ':' :: b₂ → a₁ = a₂ ∧ b₁ = b₂
  | [], _, [], _, _, _, h => ⟨rfl, by simpa using h⟩
  | [], _, c :: a₂, _, _, h₂, h => by
      simp only [List.nil_append, List.cons_append, List.cons.injEq] at h
      exact absurd (show (':' : Char) ∈ c :: a₂ by rw [h.1]; exact List.mem_cons_self _ _) h₂
  | c :: a₁, _, [], _, h₁, _, h => by
      simp only [List.cons_append, List.nil_append, List.cons.injEq] at h
      exact absurd (show (':' : Char) ∈ c :: a₁ by rw [← h.1]; exact List.mem_cons_self _ _) h₁
  | c₁ :: a₁, b₁, c₂ :: a₂, b₂, h₁, h₂, h => by
      simp only [List.cons_append, List.cons.injEq] at h
      have := colon_split_unique a₁ a₂
        (fun hm => h₁ (List.mem_cons_of_mem _ hm))
        (fun hm => h₂ (List.mem_cons_of_mem _ hm)) h.2
      exact ⟨by rw [h.1, this.1], this.2⟩

theorem composite_key_data (s f : String) :
    (s ++ ":" ++ f).data = s.data ++ ':' :: f.data := by
  rw [String.data_append, String.data_append]
  simp

/-- If a composite key built from colon-free parts equals another
composite key, the other key's parts are colon-free too. -/
theorem colon_free_of_key_eq {n g S F : List Char}
    (hn : (':' : Char) ∉ n) (hg : (':' : Char) ∉ g)
    (h : S ++ ':' :: F = n ++ ':' :: g) :
    (':' : Char) ∉ S ∧ (':' : Char) ∉ F := by
  have hc : (S ++ ':' :: F).count ':' = (n ++ ':' :: g).count ':' := by rw [h]
  rw [List.count_append, List.count_append, List.count_cons_self,
    List.count_cons_self] at hc
  have hn0 : n.count ':' = 0 := List.count_eq_zero.mpr hn
  have hg0 : g.count ':' = 0 := List.count_eq_zero.mpr hg
  rw [hn0, hg0] at hc
  have hS : S.count ':' = 0 := by omega
  have hF : F.count ':' = 0 := by omega
  exact ⟨List.count_eq_zero.mp hS, List.count_eq_zero.mp hF⟩

theorem composite_key_inj_right {n x y : String} (h : n ++ ":" ++ x = n ++ ":" ++ y) :
    x = y := by
  have hd := congrArg String.data h
  rw [composite_key_data, composite_key_data] at hd
  have := List.append_cancel_left hd
  exact String.ext (List.cons.inj this).2

/-- Under the data-model invariants and colon-free names, the flattened
entry keys are pairwise distinct. -/
theorem flatEntries_keys_nodup (r : MetadataRecord)
    (hnames : (r.sections.map MetadataSection.name).Nodup)
    (hfields : ∀ s ∈ r.sections, (s.fields.map Prod.fst).Nodup)
    (hsc : ∀ s ∈ r.sections, (':' : Char) ∉ s.name.data) :
    ((flatEntries r).map Prod.fst).Nodup := by
  unfold flatEntries
  rw [List.map_flatMap, List.nodup_flatMap]
  constructor
  · intro s hs
    rw [List.map_map]
    have hstep : (Prod.fst ∘ fun fv : String × String => (s.name ++ ":" ++ fv.1, fv.2)) =
        (fun f => s.name ++ ":" ++ f) ∘ Prod.fst := rfl
    rw [hstep, ← List.map_map]
    exact (hfields s hs).map fun _ _ hxy => composite_key_inj_right hxy
  · have hp : r.sections.Pairwise fun a b => a.name ≠ b.name :=
      List.pairwise_map.mp hnames
    refine List.Pairwise.imp_of_mem ?_ hp
    intro a b ha hb hne k hka hkb
    rw [List.mem_map] at hka hkb
    obtain ⟨⟨ka, va⟩, hkam, hkae⟩ := hka
    obtain ⟨⟨kb, vb⟩, hkbm, hkbe⟩ := hkb
    simp only [List.mem_map] at hkam hkbm
    obtain ⟨fva, hfva, hfvae⟩ := hkam
    obtain ⟨fvb, hfvb, hfvbe⟩ := hkbm
    have hka' : a.name ++ ":" ++ fva.1 = k := by rw [← hkae, ← hfvae]
    have hkb' : b.name ++ ":" ++ fvb.1 = k := by rw [← hkbe, ← hfvbe]
    have hkd : a.name.data ++ ':' :: fva.1.data = b.name.data ++ ':' :: fvb.1.data := by
      have := congrArg String.data (hka'.trans hkb'.symm)
      rw [composite_key_data, composite_key_data] at this
      exact this
    have := colon_split_unique a.name.data b.name.data (hsc a ha) (hsc b hb) hkd
    exact hne (String.ext this.1)

/-- Record whose section/field names collide once joined with `":"`. -/
def colonSample : MetadataRecord :=
  ⟨"t", "video",
    [⟨"A", [("B:C", "x")], none⟩, ⟨"A:B", [("C", "y")], none⟩],
    ""⟩

/-- C9 counterexample: the claim fails as stated — `colonSample` satisfies
the data-model invariants (distinct section names, duplicate-free field
names) yet section `A`'s field `B:C ↦ x` shares the flattened key
`"A:B:C"` with section `A:B`'s field `C ↦ y`, and the dict keeps only the
later value, so the `x` binding is unrecoverable from `flatten()`. -/
theorem flatten_lossless_cex :
    (colonSample.sections.map MetadataSection.name).Nodup ∧
    (∀ s ∈ colonSample.sections, (s.fields.map Prod.fst).Nodup) ∧
    ∃ s ∈ colonSample.sections, s.name = "A" ∧
      dictGet s.fields "B:C" = some "x" ∧
      dictGet colonSample.flatten ("A" ++ ":" ++ "B:C") ≠ some "x" := by decide

/-- C9 (amended): for every record satisfying the data-model invariants
(at most one section per name, unique field names within a section) whose
section names and field names contain no `':'`, `flatten()` maps the key
`"S:F"` to `v` iff the record has a section named `S` whose field map
assigns `v` to `F` — no section field is lost and no flattened entry is
spurious. -/
theorem flatten_lossless (r : MetadataRecord)
    (hnames : (r.sections.map MetadataSection.name).Nodup)
    (hfields : ∀ s ∈ r.sections, (s.fields.map Prod.fst).Nodup)
    (hsc : ∀ s ∈ r.sections, (':' : Char) ∉ s.name.data)
    (hfc : ∀ s ∈ r.sections, ∀ fv ∈ s.fields, (':' : Char) ∉ fv.1.data)
    (S F v : String) :
    dictGet r.flatten (S ++ ":" ++ F) = some v ↔
      ∃ s ∈ r.sections, s.name = S ∧ dictGet s.fields F = some v := by
  have hknd := flatEntries_keys_nodup r hnames hfields hsc
  have hfl : r.flatten = flatEntries r := by
    rw [flatten_eq_foldl_flatEntries]
    have := foldl_dictInsert_nodup (fun p => p.2) (flatEntries r) [] hknd fun _ _ => rfl
    simpa using this
  rw [hfl]
  constructor
  · intro h
    have hmem := mem_of_dictGet_eq_some h
    unfold flatEntries at hmem
    rw [List.mem_flatMap] at hmem
    obtain ⟨s, hs, hmm⟩ := hmem
    rw [List.mem_map] at hmm
    obtain ⟨fv, hfv, hkey⟩ := hmm
    have hk : s.name ++ ":" ++ fv.1 = S ++ ":" ++ F := congrArg Prod.fst hkey
    have hv : fv.2 = v := congrArg Prod.snd hkey
    have hkd : S.data ++ ':' :: F.data = s.name.data ++ ':' :: fv.1.data := by
      have := congrArg String.data hk
      rw [composite_key_data, composite_key_data] at this
      exact this.symm
    obtain ⟨hS, _⟩ := colon_free_of_key_eq (hsc s hs) (hfc s hs fv hfv) hkd
    obtain ⟨h1, h2⟩ := colon_split_unique S.data s.name.data hS (hsc s hs) hkd
    refine ⟨s, hs, String.ext h1.symm, ?_⟩
    have hfvFv : fv = (F, v) := Prod.ext (String.ext h2.symm) hv
    exact dictGet_eq_some_of_mem_nodup (hfields s hs) (hfvFv ▸ hfv)
  · rintro ⟨s, hs, hname, hget⟩
    have hmemf : (F, v) ∈ s.fields := mem_of_dictGet_eq_some hget
    have hmem : (S ++ ":" ++ F, v) ∈ flatEntries r := by
      unfold flatEntries
      rw [List.mem_flatMap]
      exact ⟨s, hs, List.mem_map.mpr ⟨(F, v), hmemf, by rw [hname]⟩⟩
    exact dictGet_eq_some_of_mem_nodup hknd hmem

/-- Record for the `flatten_lossless` witness. -/
def flattenSample : MetadataRecord :=
  ⟨"t", "video",
    [⟨"S", [("F", "val"), ("G", "")], none⟩, ⟨"T", [("F", "other")], none⟩],
    ""⟩

/-- Witness for `flatten_lossless` at `flattenSample`. -/
theorem flatten_lossless_witness :
    dictGet flattenSample.flatten ("S" ++ ":" ++ "F") = some "val" :=
  (flatten_lossless flattenSample (by decide) (by decide) (by decide) (by decide)
      "S" "F" "val").mpr
    ⟨⟨"S", [("F", "val"), ("G", "")], none⟩, by decide, rfl, by decide⟩

/-! ## Search-engine lemmas (C5–C8) -/

/-- Inverting one step of the `search` scan. -/
theorem search_step_eq_some {filters : List FilterCriteria} {match_all : Bool}
    {tqn : String} {e : FsEntry} {pr : String × MetadataRecord}
    (h : search_step filters match_all tqn e = some pr) :
    ∃ doc, e.content = some doc ∧ pr = (e.path, load_record doc) ∧
      filters_pass filters match_all (load_record doc).flatten = true ∧
      (tqn ≠ "" → text_match tqn e (load_record doc) (load_record doc).flatten = true) := by
  cases hc : e.content with
  | none =>
      simp only [search_step, hc] at h
      exact Option.noConfusion h
  | some doc =>
      simp only [search_step, hc] at h
      split_ifs at h with h1 h2 h3
      · refine ⟨doc, rfl, (Option.some.inj h).symm, by simpa using h1, fun hne => absurd h2 hne⟩
      · exact ⟨doc, rfl, (Option.some.inj h).symm, by simpa using h1, fun _ => h3⟩

/-- Forward evaluation of one step of the `search` scan. -/
theorem search_step_eq_some_of {filters : List FilterCriteria} {match_all : Bool}
    {tqn : String} {e : FsEntry} {doc : XmlDoc} (hc : e.content = some doc)
    (hfp : filters_pass filters match_all (load_record doc).flatten = true)
    (htm : tqn = "" ∨ text_match tqn e (load_record doc) (load_record doc).flatten = true) :
    search_step filters match_all tqn e = some (e.path, load_record doc) := by
  simp only [search_step, hc, hfp, Bool.not_true, Bool.false_eq_true, if_false]
  rcases htm with h | h
  · rw [if_pos h]
  · by_cases hq : tqn = ""
    · rw [if_pos hq]
    · rw [if_neg hq, if_pos h]

/-- Membership in a search result, characterized over the candidates. -/
theorem mem_search {entries : List FsEntry} {filters : List FilterCriteria}
    {match_all : Bool} {tq : Option String} {pr : String × MetadataRecord} :
    pr ∈ search (some entries) filters match_all tq ↔
      ∃ e ∈ xmlCandidates entries,
        search_step filters match_all (pyLower (pyStrip (tq.getD ""))) e = some pr := by
  simp [search, List.mem_filterMap]

/-- C5's per-filter predicate, written from the (amended) claim's words:
the filter's keyword, trimmed and case-folded, occurs as a substring of
the case-folded flattened value at the composite key, an absent key being
read as the empty string. -/
def claimFilterMatch (c : FilterCriteria) (flattened : List (String × String)) : Prop :=
  (pyLower (pyStrip c.keyword)).data <:+: (pyLower ((dictGet flattened c.key).getD "")).data

/-- C5's combination rule, written from the claim's words: AND when
`match_all`, OR otherwise. -/
def claimCombination (filters : List FilterCriteria) (match_all : Bool)
    (flattened : List (String × String)) : Prop :=
  if match_all then ∀ c ∈ filters, claimFilterMatch c flattened
  else ∃ c ∈ filters, claimFilterMatch c flattened

/-- The code's filter stage agrees with the claim-side combination. -/
theorem filters_pass_iff (filters : List FilterCriteria) (match_all : Bool)
    (flattened : List (String × String)) (hne : filters ≠ []) :
    filters_pass filters match_all flattened = true ↔
      claimCombination filters match_all flattened := by
  have hie : filters.isEmpty = false := by
    cases filters with
    | nil => exact absurd rfl hne
    | cons c t => rfl
  unfold filters_pass claimCombination
  rw [hie]
  cases match_all with
  | true => simp [claimFilterMatch, pyIn, List.all_map, List.all_eq_true, Function.comp]
  | false => simp [claimFilterMatch, pyIn, List.any_map, List.any_eq_true, Function.comp]

/-- Record and folder used to refute C5 as stated. -/
def filterSample : MetadataRecord := ⟨"t", "video", [⟨"S", [("F", "a")], none⟩], ""⟩

/-- C5 counterexample: the claim fails as stated — the code strips the
keyword before matching, so with keyword `" a"` against value `"a"` the
claim's un-trimmed predicate rejects (so the record should be excluded
under `match_all = true`), yet the search returns the record. -/
theorem filter_semantics_cex :
    ¬ ((pyLower (FilterCriteria.keyword ⟨"S", "F", " a"⟩)).data <:+:
        (pyLower ((dictGet (load_record (save_record filterSample)).flatten
          (FilterCriteria.key ⟨"S", "F", " a"⟩)).getD "")).data) ∧
    search (some [⟨"c.xml", some (save_record filterSample)⟩])
        [⟨"S", "F", " a"⟩] true none =
      [("c.xml", load_record (save_record filterSample))] := by
  constructor
  · decide
  · decide

/-- C5 (amended): with a non-empty filter list, each filter matches iff
its keyword — trimmed, then case-folded — is a substring of the
case-folded flattened value at the composite key `section:field` (an
absent key read as `""`, so only a keyword that is blank after trimming
matches it); the per-filter results combine with AND when `match_all` and
OR otherwise, and a record failing the combination never appears in the
search result, whatever the text query. -/
theorem filter_semantics :
    (∀ (filters : List FilterCriteria) (match_all : Bool)
        (flattened : List (String × String)), filters ≠ [] →
      (filters_pass filters match_all flattened = true ↔
        claimCombination filters match_all flattened)) ∧
    (∀ (folder : Option (List FsEntry)) (filters : List FilterCriteria)
        (match_all : Bool) (tq : Option String) (p : String) (r : MetadataRecord),
      filters ≠ [] →
      (p, r) ∈ search folder filters match_all tq →
      claimCombination filters match_all r.flatten) := by
  refine ⟨filters_pass_iff, ?_⟩
  intro folder filters match_all tq p r hne hmem
  cases folder with
  | none => simp [search] at hmem
  | some entries =>
      obtain ⟨e, _, hstep⟩ := mem_search.mp hmem
      obtain ⟨doc, _, hpr, hfp, _⟩ := search_step_eq_some hstep
      have hr : r = load_record doc := congrArg Prod.snd hpr
      rw [hr]
      exact (filters_pass_iff filters match_all _ hne).mp hfp

/-- Witness for `filter_semantics`: a two-filter AND search on concrete
data, plus the claim-side combination it induces. -/
theorem filter_semantics_witness :
    (filters_pass [⟨"S", "F", "A"⟩, ⟨"S", "G", "b"⟩] true
        (load_record (save_record ⟨"t", "video",
          [⟨"S", [("F", "xay"), ("G", "b")], none⟩], ""⟩)).flatten = true ↔
      claimCombination [⟨"S", "F", "A"⟩, ⟨"S", "G", "b"⟩] true
        (load_record (save_record ⟨"t", "video",
          [⟨"S", [("F", "xay"), ("G", "b")], none⟩], ""⟩)).flatten) ∧
    claimCombination [⟨"S", "F", "A"⟩, ⟨"S", "G", "b"⟩] true
      (load_record (save_record ⟨"t", "video",
        [⟨"S", [("F", "xay"), ("G", "b")], none⟩], ""⟩)).flatten := by
  constructor
  · exact filter_semantics.1 [⟨"S", "F", "A"⟩, ⟨"S", "G", "b"⟩] true _ (by decide)
  · exact filter_semantics.2
      (some [⟨"c.xml", some (save_record ⟨"t", "video",
        [⟨"S", [("F", "xay"), ("G", "b")], none⟩], ""⟩)⟩])
      [⟨"S", "F", "A"⟩, ⟨"S", "G", "b"⟩] true none "c.xml" _ (by decide)
      (by decide)

/-! ## C6 — text-query semantics -/

/-- C6's per-record text predicate, written from the claim's words: the
normalized query occurs (case-insensitively) in the title, the media
type, the document's filename with extension, the filename without
extension, or some flattened field value. -/
def claimTextMatch (q : String) (path : String) (r : MetadataRecord) : Prop :=
  q.data <:+: (pyLower r.title).data ∨
  q.data <:+: (pyLower r.media_type).data ∨
  q.data <:+: (pyLower (pathName path)).data ∨
  q.data <:+: (pyLower (pathStem path)).data ∨
  ∃ kv ∈ r.flatten, q.data <:+: (pyLower kv.2).data

instance (q path : String) (r : MetadataRecord) : Decidable (claimTextMatch q path r) := by
  unfold claimTextMatch
  infer_instance

/-- The code's text stage agrees with the claim-side predicate. -/
theorem text_match_iff (tqn : String) (e : FsEntry) (r : MetadataRecord) :
    text_match tqn e r r.flatten = true ↔ claimTextMatch tqn e.path r := by
  have hmap : ((r.flatten.map Prod.snd).any fun v => pyIn tqn (pyLower v)) = true ↔
      ∃ kv ∈ r.flatten, tqn.data <:+: (pyLower kv.2).data := by
    rw [List.any_eq_true]
    constructor
    · rintro ⟨v, hv, hp⟩
      obtain ⟨kv, hkv, rfl⟩ := List.mem_map.mp hv
      exact ⟨kv, hkv, by simpa [pyIn] using hp⟩
    · rintro ⟨kv, hkv, hin⟩
      exact ⟨kv.2, List.mem_map.mpr ⟨kv, hkv, rfl⟩, by simpa [pyIn] using hin⟩
  have hfront : (([r.title, r.media_type, pathStem e.path, pathName e.path] :
      List String).any fun v => pyIn tqn (pyLower v)) = true ↔
      (tqn.data <:+: (pyLower r.title).data ∨
        tqn.data <:+: (pyLower r.media_type).data ∨
        tqn.data <:+: (pyLower (pathStem e.path)).data ∨
        tqn.data <:+: (pyLower (pathName e.path)).data) := by
    simp [pyIn]
  unfold text_match claimTextMatch
  rw [List.any_append, Bool.or_eq_true, hmap, hfront]
  tauto

/-- C6: when the text query, trimmed and case-folded, is non-empty, a
record that passed the filter stage is kept iff the query occurs
case-insensitively in its title, media type, filename with or without
extension, or some flattened field value. -/
theorem text_query_semantics :
    (∀ (entries : List FsEntry) (filters : List FilterCriteria) (match_all : Bool)
        (tq : String) (p : String) (r : MetadataRecord),
      pyLower (pyStrip tq) ≠ "" →
      (p, r) ∈ search (some entries) filters match_all (some tq) →
      claimTextMatch (pyLower (pyStrip tq)) p r) ∧
    (∀ (entries : List FsEntry) (filters : List FilterCriteria) (match_all : Bool)
        (tq : String) (e : FsEntry) (doc : XmlDoc),
      e ∈ xmlCandidates entries → e.content = some doc →
      filters_pass filters match_all (load_record doc).flatten = true →
      claimTextMatch (pyLower (pyStrip tq)) e.path (load_record doc) →
      (e.path, load_record doc) ∈ search (some entries) filters match_all (some tq)) := by
  constructor
  · intro entries filters match_all tq p r hq hmem
    obtain ⟨e, _, hstep⟩ := mem_search.mp hmem
    obtain ⟨doc, _, hpr, _, htm⟩ := search_step_eq_some hstep
    have hp : p = e.path := congrArg Prod.fst hpr
    have hr : r = load_record doc := congrArg Prod.snd hpr
    subst hp
    subst hr
    exact (text_match_iff _ e _).mp (htm hq)
  · intro entries filters match_all tq e doc he hc hfp hctm
    refine mem_search.mpr ⟨e, he, ?_⟩
    exact search_step_eq_some_of hc hfp
      (Or.inr ((text_match_iff _ e _).mpr hctm))

/-- The Cairo record of the spec's search scenario. -/
def cairoRecord : MetadataRecord :=
  ⟨"Cairo Street Scenes", "video",
    [⟨"Descriptive", [("Title", "Cairo Street Scenes")], none⟩], ""⟩

/-- Witness for `text_query_semantics`: the query `"cairo"` finds the
Cairo record, and a record returned under that query does contain it. -/
theorem text_query_semantics_witness :
    ("d/a.xml", load_record (save_record cairoRecord)) ∈
      search (some [⟨"d/a.xml", some (save_record cairoRecord)⟩]) [] true (some "cairo") := by
  exact text_query_semantics.2 [⟨"d/a.xml", some (save_record cairoRecord)⟩] [] true "cairo"
    ⟨"d/a.xml", some (save_record cairoRecord)⟩ (save_record cairoRecord)
    (by decide) rfl (by decide) (by decide)

/-! ## C7 — enumeration, ordering and the degenerate search -/

instance : IsTrans FsEntry fun a b => a.path ≤ b.path :=
  ⟨fun _ _ _ h₁ h₂ => le_trans h₁ h₂⟩

instance : IsTotal FsEntry fun a b => a.path ≤ b.path :=
  ⟨fun a b => le_total a.path b.path⟩

theorem xmlCandidates_sorted (entries : List FsEntry) :
    List.Sorted (· ≤ ·) ((xmlCandidates entries).map FsEntry.path) := by
  have h := List.sorted_insertionSort (fun a b : FsEntry => a.path ≤ b.path)
    (entries.filter fun e => pyEndsWith e.path ".xml")
  exact List.pairwise_map.mpr h

theorem search_paths_sublist (filters : List FilterCriteria) (match_all : Bool)
    (tqn : String) :
    ∀ l : List FsEntry,
      List.Sublist ((l.filterMap (search_step filters match_all tqn)).map Prod.fst)
        (l.map FsEntry.path)
  | [] => List.Sublist.refl []
  | e :: t => by
      cases hstep : search_step filters match_all tqn e with
      | none =>
          rw [List.filterMap_cons, hstep, List.map_cons]
          exact (search_paths_sublist filters match_all tqn t).cons e.path
      | some pr =>
          have hp : pr.1 = e.path := by
            obtain ⟨doc, _, hpr, _, _⟩ := search_step_eq_some hstep
            rw [hpr]
          rw [List.filterMap_cons, hstep, List.map_cons, List.map_cons, hp]
          exact (search_paths_sublist filters match_all tqn t).cons₂ e.path

/-- C7: a nonexistent folder yields `[]` (and so does an empty one);
results follow the lexicographically sorted candidate order — their paths
are a sublist of the sorted candidate paths, hence themselves sorted —
and with no filters and a blank query the search returns exactly the
loadable documents in that order. -/
theorem search_enumeration :
    (∀ (filters : List FilterCriteria) (match_all : Bool) (tq : Option String),
      search none filters match_all tq = []) ∧
    (∀ (filters : List FilterCriteria) (match_all : Bool) (tq : Option String),
      search (some []) filters match_all tq = []) ∧
    (∀ (entries : List FsEntry) (filters : List FilterCriteria) (match_all : Bool)
        (tq : Option String),
      List.Sublist ((search (some entries) filters match_all tq).map Prod.fst)
        ((xmlCandidates entries).map FsEntry.path) ∧
      List.Sorted (· ≤ ·) ((search (some entries) filters match_all tq).map Prod.fst)) ∧
    (∀ (entries : List FsEntry) (match_all : Bool) (tq : Option String),
      pyStrip (tq.getD "") = "" →
      search (some entries) [] match_all tq =
        (xmlCandidates entries).filterMap fun e =>
          e.content.map fun doc => (e.path, load_record doc)) := by
  refine ⟨fun _ _ _ => rfl, fun _ _ _ => rfl, ?_, ?_⟩
  · intro entries filters match_all tq
    have hsub := search_paths_sublist filters match_all
      (pyLower (pyStrip (tq.getD ""))) (xmlCandidates entries)
    exact ⟨hsub, (xmlCandidates_sorted entries).sublist hsub⟩
  · intro entries match_all tq hq
    show (xmlCandidates entries).filterMap
        (search_step [] match_all (pyLower (pyStrip (tq.getD "")))) = _
    rw [hq]
    apply List.filterMap_congr
    intro e _
    cases hc : e.content with
    | none => simp [search_step, hc]
    | some doc => simp [search_step, hc, filters_pass, pyLower]

/-- Witness for `search_enumeration`: degenerate search over a concrete
folder (one loadable document after one malformed file) lists exactly the
loadable document. -/
theorem search_enumeration_witness :
    search (some [⟨"d/bad.xml", none⟩, ⟨"d/a.xml", some (save_record cairoRecord)⟩])
        [] true (some "") =
      (xmlCandidates [⟨"d/bad.xml", none⟩, ⟨"d/a.xml", some (save_record cairoRecord)⟩]).filterMap
        fun e => e.content.map fun doc => (e.path, load_record doc) :=
  search_enumeration.2.2.2
    [⟨"d/bad.xml", none⟩, ⟨"d/a.xml", some (save_record cairoRecord)⟩]
    true (some "") (by decide)

/-! ## C8 — bulk scans skip malformed documents -/

theorem filter_orderedInsert_neg {α : Type} (r : α → α → Prop) [DecidableRel r]
    (p : α → Bool) (x : α) (hpx : p x = false) :
    ∀ s : List α, (List.orderedInsert r x s).filter p = s.filter p
  | [] => by simp [List.orderedInsert, hpx]
  | y :: s => by
      by_cases hr : r x y
      · simp [List.orderedInsert, hr, List.filter_cons, hpx]
      · rw [show List.orderedInsert r x (y :: s) = y :: List.orderedInsert r x s from by
          simp [List.orderedInsert, hr]]
        rw [List.filter_cons, List.filter_cons, filter_orderedInsert_neg r p x hpx s]

theorem filter_orderedInsert_pos {α : Type} (r : α → α → Prop) [DecidableRel r]
    [IsTrans α r] (p : α → Bool) (x : α) (hpx : p x = true) :
    ∀ s : List α, List.Sorted r s →
      (List.orderedInsert r x s).filter p = List.orderedInsert r x (s.filter p)
  | [], _ => by simp [List.orderedInsert, hpx]
  | y :: s, hs => by
      by_cases hr : r x y
      · rw [show List.orderedInsert r x (y :: s) = x :: y :: s from by
          simp [List.orderedInsert, hr]]
        cases hpy : p y with
        | true => simp [List.filter_cons, hpx, hpy, List.orderedInsert, hr]
        | false =>
            have hall : ∀ z ∈ s.filter p, r x z := fun z hz =>
              IsTrans.trans x y z hr
                (List.rel_of_sorted_cons hs z (List.mem_of_mem_filter hz))
            cases hfp : s.filter p with
            | nil => simp [List.filter_cons, hpx, hpy, hfp, List.orderedInsert]
            | cons z rest =>
                have hxz : r x z := hall z (by rw [hfp]; exact List.mem_cons_self z rest)
                simp [List.filter_cons, hpx, hpy, hfp, List.orderedInsert, hxz]
      · rw [show List.orderedInsert r x (y :: s) = y :: List.orderedInsert r x s from by
          simp [List.orderedInsert, hr]]
        have ih := filter_orderedInsert_pos r p x hpx s hs.of_cons
        cases hpy : p y with
        | true => simp [List.filter_cons, hpy, ih, List.orderedInsert, hr]
        | false => simp [List.filter_cons, hpy, ih]

/-- A stable sort commutes with `filter`. -/
theorem insertionSort_filter {α : Type} (r : α → α → Prop) [DecidableRel r]
    [IsTotal α r] [IsTrans α r] (p : α → Bool) :
    ∀ l : List α, List.insertionSort r (l.filter p) = (List.insertionSort r l).filter p
  | [] => rfl
  | x :: t => by
      have ih := insertionSort_filter r p t
      rw [List.filter_cons]
      cases hpx : p x with
      | true =>
          simp only [if_true]
          show List.orderedInsert r x (List.insertionSort r (t.filter p)) =
            (List.orderedInsert r x (List.insertionSort r t)).filter p
          rw [ih, filter_orderedInsert_pos r p x hpx _ (List.sorted_insertionSort r t)]
      | false =>
          simp only [Bool.false_eq_true, if_false]
          show List.insertionSort r (t.filter p) =
            (List.orderedInsert r x (List.insertionSort r t)).filter p
          rw [ih, filter_orderedInsert_neg r p x hpx]

/-- Filtering the folder first and collecting candidates is the same as
filtering the candidate list. -/
theorem xmlCandidates_filter (p : FsEntry → Bool) (entries : List FsEntry) :
    xmlCandidates (entries.filter p) = (xmlCandidates entries).filter p := by
  unfold xmlCandidates
  rw [← insertionSort_filter (fun a b : FsEntry => a.path ≤ b.path) p
    (entries.filter fun e => pyEndsWith e.path ".xml")]
  congr 1
  rw [List.filter_filter, List.filter_filter]
  exact List.filter_congr fun e _ => by rw [Bool.and_comm]

theorem filterMap_filter_eq {α β : Type} (g : α → Option β) (p : α → Bool) :
    ∀ l : List α, (∀ e ∈ l, p e = false → g e = none) →
      (l.filter p).filterMap g = l.filterMap g
  | [], _ => rfl
  | e :: t, h => by
      have ht := filterMap_filter_eq g p t fun a ha hpa => h a (List.mem_cons_of_mem _ ha) hpa
      rw [List.filter_cons]
      cases hpe : p e with
      | false =>
          simp only [Bool.false_eq_true, if_false]
          rw [ht, List.filterMap_cons, h e (List.mem_cons_self _ _) hpe]
      | true =>
          simp only [if_true]
          rw [List.filterMap_cons, List.filterMap_cons, ht]

theorem findSome?_filter_eq {α β : Type} (g : α → Option β) (p : α → Bool) :
    ∀ l : List α, (∀ e ∈ l, p e = false → g e = none) →
      (l.filter p).findSome? g = l.findSome? g
  | [], _ => rfl
  | e :: t, h => by
      have ht := findSome?_filter_eq g p t fun a ha hpa => h a (List.mem_cons_of_mem _ ha) hpa
      rw [List.filter_cons]
      cases hpe : p e with
      | false =>
          simp only [Bool.false_eq_true, if_false]
          rw [ht, List.findSome?_cons, h e (List.mem_cons_self _ _) hpe]
      | true =>
          simp only [if_true]
          rw [List.findSome?_cons, List.findSome?_cons, ht]

/-- C8: a document `load_record` fails on is silently excluded and the
scan continues — both `search` and `find_metadata_for_media` return
exactly what they return on the folder with the unloadable files removed,
so no per-document parse failure ever affects (or aborts) the bulk
result. -/
theorem bulk_scan_skips_malformed :
    (∀ (entries : List FsEntry) (filters : List FilterCriteria) (match_all : Bool)
        (tq : Option String),
      search (some entries) filters match_all tq =
        search (some (entries.filter fun e => e.content.isSome)) filters match_all tq) ∧
    (∀ (resolve : String → String) (entries : List FsEntry) (media_path : String),
      find_metadata_for_media resolve entries media_path =
        find_metadata_for_media resolve (entries.filter fun e => e.content.isSome)
          media_path) := by
  constructor
  · intro entries filters match_all tq
    show (xmlCandidates entries).filterMap _ =
      (xmlCandidates (entries.filter fun e => e.content.isSome)).filterMap _
    rw [xmlCandidates_filter]
    refine (filterMap_filter_eq _ _ _ ?_).symm
    intro e _ hpe
    cases hc : e.content with
    | none => simp [search_step, hc]
    | some doc => rw [hc] at hpe; exact absurd hpe (by simp)
  · intro resolve entries media_path
    show (xmlCandidates entries).findSome? _ =
      (xmlCandidates (entries.filter fun e => e.content.isSome)).findSome? _
    rw [xmlCandidates_filter]
    refine (findSome?_filter_eq _ _ _ ?_).symm
    intro e _ hpe
    cases hc : e.content with
    | none => simp [find_step, hc]
    | some doc => rw [hc] at hpe; exact absurd hpe (by simp)

end MetadataApp
